import Mathlib

/-!
Verification of the maria-linalg linear-algebra core (src/matrix.rs, src/vector.rs).

The crate works on square matrices and fixed-dimension vectors of f64 entries.
Entries are embedded as elements of a linear ordered field: the claims about
exact arithmetic and control flow are settled at the rationals, where every
definition is executable, and the trigonometric claims are settled at the reals.
Stateful Rust loops become folds, and fallible operations (unwrap of a Result
or Option from the rand crates) become Option-valued functions where a panic is
the value none.
-/

namespace Maria

/-- A vector of dimension n: the Rust field values of type an array of n f64,
embedded as a function from indices to entries. -/
abbrev Vec (n : ℕ) (α : Type) : Type := Fin n → α

/-- A square matrix: the Rust field values of type an n by n array of f64,
row-major, indexed by a (row, column) pair. -/
abbrev Mat (n : ℕ) (α : Type) : Type := Fin n → Fin n → α

variable {n : ℕ} {α : Type} [LinearOrderedField α]

/-- Vector::zero from src/vector.rs: the all-zero vector. -/
def Vector.zero : Vec n α := fun _ => 0

/-- Vector::scale from src/vector.rs: newvalues[i] = scalar * self[i]. -/
def Vector.scale (v : Vec n α) (scalar : α) : Vec n α := fun i => scalar * v i

/-- Vector::dot from src/vector.rs: output += self[i] * other[i]. -/
def Vector.dot (v other : Vec n α) : α := ∑ i, v i * other i

/-- The Add impl for Vector from src/vector.rs: new[i] = self[i] + other[i]. -/
def Vector.add (v other : Vec n α) : Vec n α := fun i => v i + other i

/-- Vector::mult from src/vector.rs: output[i] += matrix[(i, j)] * self[j],
accumulated over j. -/
def Vector.mult (v : Vec n α) (matrix : Mat n α) : Vec n α :=
  fun i => ∑ j, matrix i j * v j

/-- Vector::cross from src/vector.rs, dimension 3 only: the determinant
expansion of the cross product. -/
def Vector.cross (v other : Vec 3 α) : Vec 3 α :=
  ![v 1 * other 2 - v 2 * other 1,
    v 2 * other 0 - v 0 * other 2,
    v 0 * other 1 - v 1 * other 0]

/-- Matrix::zero from src/matrix.rs. -/
def Matrix.zero : Mat n α := fun _ _ => 0

/-- Matrix::identity from src/matrix.rs: ones on the diagonal of a zero
matrix. -/
def Matrix.identity : Mat n α := fun i j => if i = j then 1 else 0

/-- Matrix::decompose from src/matrix.rs: basis[j][i] = self[(i, j)], the
columns of the matrix as vectors. -/
def Matrix.decompose (m : Mat n α) : Fin n → Vec n α := fun j => fun i => m i j

/-- Modelled from the spec: compose n column vectors into a matrix, the
operation the spec calls the inverse of decompose. It is not a function of the
source; the spec describes decompose as the inverse of composing columns into
a matrix, so the composing direction is written from those words. -/
def Matrix.compose (cols : Fin n → Vec n α) : Mat n α := fun i j => cols j i

/-- Matrix::mult from src/matrix.rs: output[i] += self[(i, j)] * vector[j],
accumulated over j. -/
def Matrix.mult (m : Mat n α) (vector : Vec n α) : Vec n α :=
  fun i => ∑ j, m i j * vector j

/-- Vector::basis from src/vector.rs: the columns of the identity matrix. -/
def Vector.basis : Fin n → Vec n α := Matrix.decompose Matrix.identity

/-- Matrix::swaprow from src/matrix.rs: swap rows i and j. -/
def Matrix.swaprow (m : Mat n α) (i j : Fin n) : Mat n α :=
  fun r => if r = i then m j else if r = j then m i else m r

/-- Matrix::scalerow from src/matrix.rs: self[(i, j)] *= s over the row. -/
def Matrix.scalerow (m : Mat n α) (i : Fin n) (s : α) : Mat n α :=
  fun r c => if r = i then m r c * s else m r c

/-- Matrix::subrow from src/matrix.rs: self[(i, k)] -= s * self[(j, k)] over
the row. -/
def Matrix.subrow (m : Mat n α) (i j : Fin n) (s : α) : Mat n α :=
  fun r c => if r = i then m r c - s * m j c else m r c

/-- The pivot-selection scan at step i of Matrix::inverse from src/matrix.rs:
j starts at i and, for k running upward over i..N, is set to k whenever
output[(k, i)] > output[(i, i)]. The comparison is always against the fixed
working-row entry output[(i, i)], not against the current candidate j. -/
def Matrix.pivotRow (out : Mat n α) (i : Fin n) : Fin n :=
  (List.finRange n).foldl (fun j k => if i ≤ k ∧ out i i < out k i then k else j) i

/-- Modelled from the spec: the pivot selection as the spec words describe it,
the row among i..N-1 with the largest value in column i, ties broken toward
the lowest-indexed qualifying row found during the scan. Written from the spec
for comparison against Matrix.pivotRow, which is the source scan. -/
def Matrix.specPivot (out : Mat n α) (i : Fin n) : Fin n :=
  (List.finRange n).foldl (fun j k => if i ≤ k ∧ out j i < out k i then k else j) i

/-- One step i of the forward elimination loop of Matrix::inverse from
src/matrix.rs, acting on the pair of the working matrix and the accumulator:
swap the selected pivot row into position i in both, normalize row i in both,
then subtract multiples of row i from every lower row in both. -/
def Matrix.elimStep (p : Mat n α × Mat n α) (i : Fin n) : Mat n α × Mat n α :=
  let j := Matrix.pivotRow p.1 i
  let out1 := Matrix.swaprow p.1 i j
  let inv1 := Matrix.swaprow p.2 i j
  let s := 1 / out1 i i
  let out2 := Matrix.scalerow out1 i s
  let inv2 := Matrix.scalerow inv1 i s
  (List.finRange n).foldl
    (fun q k =>
      if i < k then
        let t := q.1 k i
        (Matrix.subrow q.1 k i t, Matrix.subrow q.2 k i t)
      else q)
    (out2, inv2)

/-- One step i of the back-substitution loop of Matrix::inverse from
src/matrix.rs: for every column j above the diagonal in row i, subtract the
appropriate multiple of row j from row i in both matrices. -/
def Matrix.backStep (p : Mat n α × Mat n α) (i : Fin n) : Mat n α × Mat n α :=
  (List.finRange n).foldl
    (fun q j =>
      if i < j then
        let t := q.1 i j
        (Matrix.subrow q.1 i j t, Matrix.subrow q.2 i j t)
      else q)
    p

/-- Matrix::inverse from src/matrix.rs: Gauss-Jordan elimination of a working
copy alongside an identity-initialized accumulator, returning the
accumulator. -/
def Matrix.inverse (m : Mat n α) : Mat n α :=
  ((List.finRange n).foldl Matrix.backStep
    ((List.finRange n).foldl Matrix.elimStep (m, Matrix.identity))).2

/-- The concrete matrix used to probe the very first pivot selection of
Matrix::inverse: its first column is 0, 2, 1 reading down the rows. -/
def Mcex : Mat 3 ℚ := ![![0, 0, 0], ![2, 1, 0], ![1, 0, 1]]

/-- Helper: a fold that replaces the accumulator by the current element
whenever the element satisfies p returns either the initial accumulator or a
member of the list satisfying p. -/
lemma foldl_pick_eq_or {β : Type} (p : β → Prop) [DecidablePred p] (l : List β) :
    ∀ j0 : β,
      l.foldl (fun j k => if p k then k else j) j0 = j0 ∨
        (l.foldl (fun j k => if p k then k else j) j0 ∈ l ∧
          p (l.foldl (fun j k => if p k then k else j) j0)) := by
  induction l with
  | nil => intro j0; exact Or.inl rfl
  | cons a l ih =>
    intro j0
    rw [List.foldl_cons]
    rcases ih (if p a then a else j0) with h | h
    · rw [h]
      by_cases hpa : p a
      · rw [if_pos hpa]
        exact Or.inr ⟨List.mem_cons_self a l, hpa⟩
      · rw [if_neg hpa]
        exact Or.inl rfl
    · exact Or.inr ⟨List.mem_cons_of_mem a h.1, h.2⟩

/-- Helper: over a list sorted in nondecreasing order, the same fold ends at
least as high as every member of the list satisfying p, since a later
qualifying element always overwrites the accumulator. -/
lemma foldl_pick_ge {β : Type} [LinearOrder β] (p : β → Prop) [DecidablePred p] :
    ∀ l : List β, l.Sorted (· ≤ ·) → ∀ j0 k : β, k ∈ l → p k →
      k ≤ l.foldl (fun j m => if p m then m else j) j0 := by
  intro l
  induction l with
  | nil =>
    intro _ j0 k hk
    exact absurd hk (List.not_mem_nil k)
  | cons a l ih =>
    intro hs j0 k hk hpk
    rw [List.foldl_cons]
    rcases List.mem_cons.mp hk with rfl | hmem
    · rw [if_pos hpk]
      rcases foldl_pick_eq_or p l k with h | h
      · rw [h]
      · exact (List.sorted_cons.mp hs).1 _ h.1
    · exact ih (List.sorted_cons.mp hs).2 (if p a then a else j0) k hmem hpk

/-- Helper: finRange is sorted in nondecreasing order. -/
lemma sorted_le_finRange (k : ℕ) : (List.finRange k).Sorted (· ≤ ·) :=
  List.pairwise_le_finRange k

/-- Claim C1 counterexample: on the concrete matrix Mcex, whose first column
is 0, 2, 1, the first pivot scan of Matrix::inverse selects row 2 although the
largest value in the column among rows 0..2 sits in row 1, and the spec
selection rule (largest value, ties toward the lowest index) selects row 1;
the entry of the selected row is even strictly smaller than the entry of
row 1. -/
theorem inverse_pivot_counterexample :
    Matrix.pivotRow Mcex 0 = 2 ∧ Matrix.specPivot Mcex 0 = 1 ∧
      Mcex (Matrix.pivotRow Mcex 0) 0 < Mcex 1 0 := by
  decide

/-- Claim C1 (amended): at each pivot step i, the row swapped into position i
is the highest-indexed row k among rows i..N-1 whose entry in column i
strictly exceeds the working-row entry at (i, i), or row i itself when no row
exceeds it. Formally, the selected row j satisfies i ≤ j, either j = i or the
entry of row j strictly exceeds the entry at (i, i), and every qualifying row
k lies at or below j in index. -/
theorem inverse_pivot_amended (k : ℕ) (out : Mat k ℚ) (i j : Fin k) :
    (i ≤ Matrix.pivotRow out i ∧
      (Matrix.pivotRow out i = i ∨ out i i < out (Matrix.pivotRow out i) i)) ∧
    (i ≤ j → out i i < out j i → j ≤ Matrix.pivotRow out i) := by
  constructor
  · rcases foldl_pick_eq_or (fun m => i ≤ m ∧ out i i < out m i) (List.finRange k) i
      with h | h
    · have e : Matrix.pivotRow out i = i := h
      rw [e]
      exact ⟨le_refl i, Or.inl rfl⟩
    · have hp : i ≤ Matrix.pivotRow out i ∧ out i i < out (Matrix.pivotRow out i) i := h.2
      exact ⟨hp.1, Or.inr hp.2⟩
  · intro hij hlt
    exact foldl_pick_ge (fun m => i ≤ m ∧ out i i < out m i) (List.finRange k)
      (sorted_le_finRange k) i j (List.mem_finRange j) ⟨hij, hlt⟩

/-- Claim C1 (amended) witness: on Mcex, row 1 qualifies at the first step, so
the selected pivot row is at least 1. -/
theorem inverse_pivot_amended_witness :
    ((0 : Fin 3) ≤ 1 ∧ Mcex 0 0 < Mcex 1 0) ∧ (1 : Fin 3) ≤ Matrix.pivotRow Mcex 0 :=
  ⟨⟨by decide, by decide⟩,
    (inverse_pivot_amended 3 Mcex 0 1).2 (by decide) (by decide)⟩

/-- Claim C5 counterexample: the claim asserts that Vector::mult and
Matrix::mult differ on some non-symmetric matrix and vector. They never
differ: both compute exactly the accumulation of matrix[(i, j)] * vector[j]
over j, so no matrix of any dimension separates them. -/
theorem vector_mult_counterexample :
    ¬ ∃ (k : ℕ) (m : Mat k ℝ) (v : Vec k ℝ), Vector.mult v m ≠ Matrix.mult m v := by
  push_neg
  intro k m v
  rfl

/-- Claim C5 (amended): Vector::mult computes output[i] as the sum over j of
matrix[i, j] * self[j], and it coincides with Matrix::mult on every matrix and
vector, symmetric or not; the two are the same operator, not distinct ones. -/
theorem vector_mult_amended (k : ℕ) (m : Mat k ℝ) (v : Vec k ℝ) :
    (∀ i, Vector.mult v m i = ∑ j, m i j * v j) ∧ Vector.mult v m = Matrix.mult m v :=
  ⟨fun _ => rfl, rfl⟩

/-- Claim C7: Matrix::decompose yields the columns, with basis[j][i] equal to
the entry at row i and column j, and composing those columns back into a
matrix reproduces the original matrix exactly. -/
theorem decompose_recompose (k : ℕ) (m : Mat k ℝ) :
    (∀ i j, Matrix.decompose m j i = m i j) ∧ Matrix.compose (Matrix.decompose m) = m :=
  ⟨fun _ _ => rfl, rfl⟩

/-- Modelled from the spec: the Normal distribution handle of the external
rand_distr crate used by Vector::child. Construction through Normal::new fails
exactly when the standard deviation is negative (the NaN failure case of the
crate has no counterpart in an ordered field), which is the failure mode the
spec attributes to the Gaussian sampler. -/
structure NormalDist (β : Type) where
  mean : β
  stdDev : β

/-- Modelled from the spec: Normal::new of rand_distr, none exactly on a
negative standard deviation. -/
def Normal.new (mean stdDev : α) : Option (NormalDist α) :=
  if stdDev < 0 then none else some ⟨mean, stdDev⟩

/-- Modelled from the spec: sampling a Normal distribution, mean plus the
standard deviation times a standard-normal draw z supplied by the random
source. -/
def NormalDist.sample (d : NormalDist α) (z : α) : α := d.mean + d.stdDev * z

/-- Modelled from the spec: SliceRandom::choose of the rand crate, none
exactly on an empty slice, otherwise an element selected by the draw r. -/
def chooseSlice {β : Type} (l : List β) (r : ℕ) : Option β := l.get? (r % l.length)

/-- Vector::child from src/vector.rs: for each coordinate pick the mother or
the father gene on a uniform draw u, then add a sample of Normal::new(0,
stdev) unwrapped; the unwrap panic is the value none. The random source is
passed as the explicit draw streams u (uniform) and z (standard normal). -/
def Vector.child (mother father : Vec n α) (stdev : α) (u z : Fin n → α) :
    Option (Vec n α) :=
  (List.finRange n).foldlM
    (fun child i =>
      let gene := if u i < 1 / 2 then mother i else father i
      (Normal.new 0 stdev).map fun normal =>
        Function.update child i (gene + normal.sample (z i)))
    Vector.zero

/-- Vector::child_discrete from src/vector.rs: for each coordinate pick the
mother or the father gene on a uniform draw u, then with probability 1/N
(trigger draw t below 1/N) replace it by a choose from the permitted slice,
unwrapped; the unwrap panic is the value none. The draw pick selects the
element chosen from the slice. -/
def Vector.child_discrete (mother father : Vec n α) (permitted : List α)
    (u t : Fin n → α) (pick : Fin n → ℕ) : Option (Vec n α) :=
  (List.finRange n).foldlM
    (fun child i =>
      let gene := if u i < 1 / 2 then mother i else father i
      let child := Function.update child i gene
      if t i < 1 / (n : α) then
        (chooseSlice permitted (pick i)).map fun v => Function.update child i v
      else
        some child)
    Vector.zero

/-- Helper: an Option fold whose step never fails computes the corresponding
pure fold. -/
lemma foldlM_eq_some_foldl {β γ : Type} (f : γ → β → Option γ) (g : γ → β → γ)
    (hfg : ∀ b a, f b a = some (g b a)) :
    ∀ (l : List β) (init : γ), l.foldlM f init = some (l.foldl g init) := by
  intro l
  induction l with
  | nil => intro init; rfl
  | cons a l ih =>
    intro init
    rw [List.foldlM_cons, hfg init a]
    simpa using ih (g init a)

/-- Helper: an Option fold whose step never fails returns some result. -/
lemma foldlM_isSome {β γ : Type} (f : γ → β → Option γ)
    (hf : ∀ b a, (f b a).isSome) :
    ∀ (l : List β) (init : γ), (l.foldlM f init).isSome := by
  intro l
  induction l with
  | nil => intro init; rfl
  | cons a l ih =>
    intro init
    rw [List.foldlM_cons]
    obtain ⟨c, hc⟩ := Option.isSome_iff_exists.mp (hf init a)
    rw [hc]
    simpa using ih c

/-- Helper: folding coordinate updates whose written value depends only on the
coordinate evaluates, at any index, to the written value when the index is in
the list and to the initial value otherwise. -/
lemma foldl_update_apply {k : ℕ} {β : Type} (g : Fin k → β) :
    ∀ (l : List (Fin k)) (init : Fin k → β) (j : Fin k),
      (l.foldl (fun c i => Function.update c i (g i)) init) j =
        if j ∈ l then g j else init j := by
  intro l
  induction l with
  | nil => intro init j; simp
  | cons a l ih =>
    intro init j
    rw [List.foldl_cons, ih]
    by_cases hj : j ∈ l
    · simp [hj]
    · by_cases hja : j = a
      · subst hja
        simp [hj]
      · simp [hj, hja, Function.update_noteq hja]

/-- Claim C8: for mother 1,1,1, father 0,0,0, and stdev 0, every outcome of
the random source gives a child vector each of whose coordinates is 1 or 0:
Normal::new(0, 0) succeeds and its samples are exactly 0, so no noise is
added. -/
theorem child_zero_stdev (u z : Fin 3 → ℚ) :
    ∃ c : Vec 3 ℚ,
      Vector.child (fun _ => 1) (fun _ => 0) 0 u z = some c ∧
        ∀ i, c i = 1 ∨ c i = 0 := by
  refine ⟨(List.finRange 3).foldl
    (fun c i =>
      Function.update c i ((if u i < 1 / 2 then (1 : ℚ) else 0) + ((0 : ℚ) + 0 * z i)))
    Vector.zero, ?_, ?_⟩
  · apply foldlM_eq_some_foldl
    intro b a
    simp [Vector.child, Normal.new, NormalDist.sample]
  · intro i
    rw [foldl_update_apply]
    rw [if_pos (List.mem_finRange i)]
    by_cases h : u i < 1 / 2
    · left
      rw [if_pos h]
      ring
    · right
      rw [if_neg h]
      ring

/-- Claim C9 counterexample: at dimension 0 the coordinate loop of
Vector::child_discrete never runs, so with an empty permitted slice no random
outcome reaches the unwrap and no outcome panics, against the claim that an
empty permitted set always has a panicking outcome. -/
theorem child_discrete_dim0_counterexample :
    ¬ ∃ (u t : Fin 0 → ℚ) (pick : Fin 0 → ℕ),
        Vector.child_discrete (n := 0) Vector.zero Vector.zero [] u t pick = none := by
  rintro ⟨u, t, pick, h⟩
  simp [Vector.child_discrete] at h

/-- Claim C9 (amended): for every dimension N at least 1, Vector::child_discrete
panics for some random outcome whenever the permitted candidate set is empty,
and for every non-empty permitted set it never panics and returns a vector,
for every dimension. -/
theorem child_discrete_amended (k : ℕ) (mother father : Vec k ℚ) (permitted : List ℚ) :
    (0 < k → permitted = [] →
      ∃ (u t : Fin k → ℚ) (pick : Fin k → ℕ),
        Vector.child_discrete mother father permitted u t pick = none) ∧
    (permitted ≠ [] → ∀ (u t : Fin k → ℚ) (pick : Fin k → ℕ),
      (Vector.child_discrete mother father permitted u t pick).isSome) := by
  constructor
  · intro hk hperm
    subst hperm
    refine ⟨fun _ => 0, fun _ => 0, fun _ => 0, ?_⟩
    obtain ⟨m, rfl⟩ : ∃ m, k = m + 1 := ⟨k - 1, (Nat.succ_pred_eq_of_pos hk).symm⟩
    have hpos : (0 : ℚ) < 1 / ((m + 1 : ℕ) : ℚ) := by positivity
    simp only [Vector.child_discrete, List.finRange_succ_eq_map, List.foldlM_cons]
    dsimp only
    rw [if_pos hpos]
    rfl
  · intro hperm u t pick
    apply foldlM_isSome
    intro b a
    dsimp only
    rcases lt_or_ge (t a) (1 / ((k : ℕ) : ℚ)) with h | h
    · rw [if_pos h]
      have hlen : 0 < permitted.length := List.length_pos.mpr hperm
      have hmod : pick a % permitted.length < permitted.length := Nat.mod_lt _ hlen
      cases hg : permitted.get? (pick a % permitted.length) with
      | none => exact absurd (List.get?_eq_none.mp hg) (not_le.mpr hmod)
      | some x =>
        unfold chooseSlice
        rw [hg]
        rfl
    · rw [if_neg (not_lt.mpr h)]
      rfl

/-- Claim C9 (amended) witness: at dimension 3 with the non-empty permitted
slice containing 1, every outcome returns a vector. -/
theorem child_discrete_amended_witness :
    (Vector.child_discrete (n := 3) Vector.zero Vector.zero ([1] : List ℚ)
      (fun _ => 0) (fun _ => 0) (fun _ => 0)).isSome :=
  (child_discrete_amended 3 Vector.zero Vector.zero ([1] : List ℚ)).2 (by decide)
    (fun _ => 0) (fun _ => 0) (fun _ => 0)

/-- Claim C10 counterexample: at dimension 0 the coordinate loop of
Vector::child never runs, so with the negative stdev -1 the call still returns
a vector instead of panicking, against the claim that every negative stdev
panics. -/
theorem child_dim0_counterexample :
    Vector.child (n := 0) Vector.zero Vector.zero (-1 : ℚ) Fin.elim0 Fin.elim0 =
      some Vector.zero := rfl

/-- Claim C10 (amended): for every dimension N at least 1, Vector::child
panics for every negative stdev, because Normal::new(0, stdev) fails there and
is unwrapped (the NaN failure case of the sampler has no counterpart in the
embedding), and for every stdev at least 0 the unwrap succeeds on every
coordinate and a vector is returned, for every dimension. -/
theorem child_stdev_amended (k : ℕ) (mother father : Vec k ℚ) (stdev : ℚ)
    (u z : Fin k → ℚ) :
    (0 < k → stdev < 0 → Vector.child mother father stdev u z = none) ∧
    (0 ≤ stdev → (Vector.child mother father stdev u z).isSome) := by
  constructor
  · intro hk hneg
    obtain ⟨m, rfl⟩ : ∃ m, k = m + 1 := ⟨k - 1, (Nat.succ_pred_eq_of_pos hk).symm⟩
    simp [Vector.child, List.finRange_succ_eq_map, List.foldlM_cons, Normal.new, hneg]
  · intro hnn
    apply foldlM_isSome
    intro b a
    simp [Normal.new, not_lt.mpr hnn]

/-- Claim C10 (amended) witness: at dimension 1 a stdev of -1 makes the call
panic. -/
theorem child_stdev_amended_witness :
    Vector.child (n := 1) Vector.zero Vector.zero (-1 : ℚ)
      (fun _ => 0) (fun _ => 0) = none :=
  (child_stdev_amended 1 Vector.zero Vector.zero (-1) (fun _ => 0) (fun _ => 0)).1
    (by decide) (by decide)

/-- Vector::norm from src/vector.rs: the square root of the accumulated
powf(2.0) of the entries; on a real number powf(2.0) squares it. -/
noncomputable def Vector.norm (v : Vec n ℝ) : ℝ := Real.sqrt (∑ i, v i ^ 2)

/-- Vector::normalize from src/vector.rs: self.scale(1.0 / self.norm()). -/
noncomputable def Vector.normalize (v : Vec n ℝ) : Vec n ℝ :=
  Vector.scale v (1 / Vector.norm v)

/-- Vector::rotate from src/vector.rs, dimension 3 only: with k the
normalized axis, self.scale(cos angle) + k.scale(self.dot(k) * (1 - cos
angle)) + k.cross(self).scale(sin angle). -/
noncomputable def Vector.rotate (v axis : Vec 3 ℝ) (angle : ℝ) : Vec 3 ℝ :=
  let k := Vector.normalize axis
  Vector.add
    (Vector.add (Vector.scale v (Real.cos angle))
      (Vector.scale k (Vector.dot v k * (1 - Real.cos angle))))
    (Vector.scale (Vector.cross k v) (Real.sin angle))

/-- Matrix::rotation from src/matrix.rs: rotate each basis vector, then pack
the images as the columns of an explicit 3 by 3 matrix, entry (i, j) holding
r[j][i]. -/
noncomputable def Matrix.rotation (axis : Vec 3 ℝ) (angle : ℝ) : Mat 3 ℝ :=
  let r : Fin 3 → Vec 3 ℝ := fun i => Vector.rotate (Vector.basis i) axis angle
  ![![r 0 0, r 1 0, r 2 0],
    ![r 0 1, r 1 1, r 2 1],
    ![r 0 2, r 1 2, r 2 2]]

/-- Modelled from the spec: the Rodrigues rotation formula exactly as the spec
words state it, v*cos(angle) + k*(v dot k)*(1 - cos(angle)) + (k cross
v)*sin(angle) with k the normalized axis. Written from the spec for comparison
against Vector.rotate, which is the source expression. -/
noncomputable def rodriguesSpec (v axis : Vec 3 ℝ) (angle : ℝ) : Vec 3 ℝ :=
  fun i =>
    v i * Real.cos angle +
      Vector.normalize axis i * Vector.dot v (Vector.normalize axis) *
        (1 - Real.cos angle) +
      Vector.cross (Vector.normalize axis) v i * Real.sin angle

/-- Claim C3: for every vector, nonzero axis, and angle, Vector::rotate
computes exactly the Rodrigues formula of the spec with k the normalized
axis. -/
theorem rotate_rodrigues (v axis : Vec 3 ℝ) (angle : ℝ)
    (haxis : axis ≠ Vector.zero) :
    Vector.rotate v axis angle = rodriguesSpec v axis angle := by
  funext i
  simp only [Vector.rotate, Vector.add, Vector.scale, rodriguesSpec]
  ring

/-- Claim C3 witness: the all-ones axis is nonzero and the equality holds
there. -/
theorem rotate_rodrigues_witness :
    Vector.rotate Vector.zero (fun _ => 1) 1 = rodriguesSpec Vector.zero (fun _ => 1) 1 :=
  rotate_rodrigues Vector.zero (fun _ => 1) 1 (by
    intro h
    have h0 := congrFun h 0
    simp [Vector.zero] at h0)

/-- Helper: entry (i, j) of the rotation matrix is coordinate i of the rotated
basis vector j, read off the explicit 3 by 3 packing. -/
lemma rotation_entry (axis : Vec 3 ℝ) (angle : ℝ) (i j : Fin 3) :
    Matrix.rotation axis angle i j = Vector.rotate (Vector.basis j) axis angle i := by
  fin_cases i <;> fin_cases j <;> rfl

/-- Claim C2: every column i of Matrix::rotation is the image of basis vector
i under Vector::rotate, and applying the matrix through Matrix::mult to any
vector agrees with rotating that vector directly. -/
theorem rotation_matrix_columns (axis : Vec 3 ℝ) (angle : ℝ) :
    (∀ i j, Matrix.rotation axis angle i j = Vector.rotate (Vector.basis j) axis angle i) ∧
    ∀ v : Vec 3 ℝ, Matrix.mult (Matrix.rotation axis angle) v = Vector.rotate v axis angle := by
  refine ⟨rotation_entry axis angle, fun v => ?_⟩
  funext i
  have hm : Matrix.mult (Matrix.rotation axis angle) v i =
      ∑ j, Vector.rotate (Vector.basis j) axis angle i * v j := by
    simp only [Matrix.mult]
    exact Finset.sum_congr rfl fun j _ => by rw [rotation_entry]
  rw [hm, Fin.sum_univ_three]
  fin_cases i <;>
    simp [Vector.rotate, Vector.add, Vector.scale, Vector.dot, Vector.cross,
      Vector.basis, Matrix.decompose, Matrix.identity, Fin.sum_univ_three] <;>
    ring

end Maria
